import Mathlib

/-!
# Verification of the Miami-Dade property dashboard core (src/app.py)

Shallow embedding of the core logic of `app.py`: folio normalization,
the Douglas-Peucker geometry simplifier, the generic ArcGIS query client,
the multi-source property resolver, area-query pagination, sales
date-window filtering, and the bulk resolver.

Modelling conventions:
* Python floats are modelled as `ℚ`; the Douglas-Peucker code compares
  Euclidean distances, which we model by comparing *squared* distances
  (squaring both sides of each comparison; `Real.sqrt` is monotone on
  nonnegative values, so the branch structure is identical).
* Remote HTTP services are modelled as oracle functions passed in as
  arguments; `requests` exceptions and pandas errors are modelled with
  `Except String`.
* `st.cache_data` / `st.cache_resource` memoization, `st.info` logging and
  `time.sleep` throttling are effect-free for the functional claims and
  are not modelled.
* Timestamps are integers counting nanoseconds since the epoch (pandas'
  internal representation).
-/

/-! ## Folio normalizer (`format_md_folio`, `normalize_folios`) -/

/-- Model of `f"{d[0:2]}-{d[2:6]}-{d[6:9]}-{d[9:13]}"` on the character list of a
13-digit string (the hyphenated display form built in `format_md_folio`,
`normalize_folios` and `get_property_by_folio`). -/
def hyphChars (d : List Char) : List Char :=
  d.take 2 ++ '-' :: ((d.drop 2).take 4 ++ '-' :: ((d.drop 6).take 3 ++ '-' :: (d.drop 9).take 4))

/-- String-level hyphenation of a 13-digit folio. -/
def hyphFmt (d : String) : String :=
  String.mk (hyphChars d.toList)

/-- Python `str.strip()`: drop leading and trailing whitespace (modelled at
the character level so that it evaluates inside the kernel; Python also
strips a few rarer Unicode whitespace characters, which never occur in the
inputs considered here). -/
def pyStrip (s : String) : String :=
  String.mk (((s.toList.dropWhile Char.isWhitespace).reverse.dropWhile Char.isWhitespace).reverse)

/-- Model of `format_md_folio` (app.py lines 89-96): return `(hyphenated, digits)`.
Strips the input, keeps the digit characters; if exactly 13 digits remain
the first component is the hyphenated form, otherwise the trimmed raw text. -/
def format_md_folio (input_str : String) : String × String :=
  let s := pyStrip input_str
  let digits := String.mk (s.toList.filter Char.isDigit)
  if digits.length = 13 then (hyphFmt digits, digits) else (s, digits)

/-- The character substitution performed by the chained `str.replace` calls in
`normalize_folios` (lines 188-194): CR, LF, comma, semicolon and tab all
become a space.  The chained single-character replacements are equivalent to
this single character map because the replacement character is never itself
replaced. -/
def sepToSpace (c : Char) : Char :=
  if c = '\r' ∨ c = '\n' ∨ c = ',' ∨ c = ';' ∨ c = '\t' then ' ' else c

/-- Model of `re.findall(r"\d{13}", text)` (line 195): scan left to right; at each
position, if the next 13 characters are all digits they form a
(non-overlapping) match and scanning resumes after them, otherwise move one
character forward.  This is exactly Python's leftmost, non-overlapping match
semantics for the fixed-width pattern `\d{13}`. -/
def findall13F : Nat → List Char → List (List Char)
  | 0, _ => []
  | _ + 1, [] => []
  | fuel + 1, c :: rest =>
    if ((c :: rest).take 13).length = 13 ∧ ((c :: rest).take 13).all Char.isDigit then
      (c :: rest).take 13 :: findall13F fuel ((c :: rest).drop 13)
    else
      findall13F fuel rest

/-- The scan at its natural fuel.  Every recursive call of the scan is on a
strictly shorter list, so `s.length` is always sufficient fuel and the
fuel-exhausted arm of `findall13F` is unreachable from here (fuel only makes
the recursion structural, see `findall13F_fuel_irrel`). -/
def findall13 (s : List Char) : List (List Char) :=
  findall13F s.length s

/-- The dedup loop of `normalize_folios` (lines 196-201): walk the matched
13-digit runs, emit the hyphenated form the first time each digit string is
seen (`seen` is the set of digit strings already emitted). -/
def dedupLoop : List (List Char) → List (List Char) → List String
  | [], _ => []
  | d :: rest, seen =>
    if d ∈ seen then dedupLoop rest seen
    else String.mk (hyphChars d) :: dedupLoop rest (d :: seen)

/-- Model of `normalize_folios` (lines 184-202): parse pasted text and return the
unique, normalized 13-digit folios in hyphenated form, first-seen order. -/
def normalize_folios (text : String) : List String :=
  if text = "" then []
  else dedupLoop (findall13 (text.toList.map sepToSpace)) []

/-- Comma-join of a list of strings (the natural serialization used to
re-parse the parser's own output). -/
def joinCommaChars : List (List Char) → List Char
  | [] => []
  | [b] => b
  | b :: rest => b ++ ',' :: joinCommaChars rest

/-- Comma-join at the string level. -/
def joinComma (l : List String) : String :=
  String.mk (joinCommaChars (l.map String.toList))

/-- The hyphenated display pattern `\d{2}-\d{4}-\d{3}-\d{4}`. -/
def isHyphFolio (s : String) : Bool :=
  match s.toList with
  | [a, b, c, d, e, f, g, h, i, j, k, l, m, n, o, p] =>
    a.isDigit && b.isDigit && (c = '-') && d.isDigit && e.isDigit && f.isDigit && g.isDigit &&
    (h = '-') && i.isDigit && j.isDigit && k.isDigit && (l = '-') &&
    m.isDigit && n.isDigit && o.isDigit && p.isDigit
  | _ => false

/-! ## Remote query client (`arcgis_query`, lines 102-136) -/

/-- A parsed JSON response body as `arcgis_query` inspects it: either a JSON
object (with an optional truthy `error` member, whose normalized message we
carry directly) or some non-object JSON value.  The payload tag stands for
the rest of the document. -/
inductive ArcJson where
  | dict (err : Option String) (payload : Nat)
  | other (payload : Nat)
deriving DecidableEq, Repr

/-- The behaviour of the HTTP transport for one request: a read timeout, a
connection error, or a response with a status code and a body (`none` when
the body is not valid JSON, so that `r.json()` raises). -/
inductive HttpAttempt where
  | timeout
  | connError
  | response (status : Nat) (body : Option ArcJson)
deriving DecidableEq, Repr

/-- The `try:` block of `arcgis_query` (lines 111-133) as run by Python:
a timeout or connection error raises; `r.raise_for_status()` raises on a
4xx/5xx status; `r.json()` raises on a malformed body; otherwise the parsed
document is produced.  `Except.error` carries the exception text. -/
def arcgisTryBlock (o : HttpAttempt) : Except String ArcJson :=
  match o with
  | .timeout => .error "ReadTimeout"
  | .connError => .error "ConnectionError"
  | .response status body =>
    if 400 ≤ status ∧ status < 600 then .error ("HTTPError " ++ toString status)
    else
      match body with
      | none => .error "JSONDecodeError"
      | some j => .ok j

/-- Model of `arcgis_query` (lines 102-136), result and diagnostic: any exception in
the `try` block is caught and converted to `(none, diagnostic)`; a 2xx JSON
object whose `error` member is truthy is converted to `(none, diagnostic)`
with a different message; anything else is returned as the success payload.
(The transport-selection between GET and POST affects only how the request
is sent, not the result shape, and is not modelled.) -/
def arcgis_query (layer : Nat) (o : HttpAttempt) : Option ArcJson × Option String :=
  match arcgisTryBlock o with
  | .error e =>
    (none, some ("ArcGIS query unavailable (layer " ++ toString layer ++ "). Details: " ++ e))
  | .ok j =>
    match j with
    | .dict (some msg) _ =>
      (none, some ("ArcGIS error (layer " ++ toString layer ++ "): " ++ msg))
    | _ => (some j, none)

/-- The failure behaviours enumerated by the claim: timeout, connection
error, non-2xx status handled by `raise_for_status` (4xx/5xx), a response
body that itself encodes an error, and a malformed body. -/
def isFailureBehavior (o : HttpAttempt) : Bool :=
  match o with
  | .timeout => true
  | .connError => true
  | .response status body =>
    (decide (400 ≤ status) && decide (status < 600)) ||
    (match body with
     | none => true
     | some (.dict (some _) _) => true
     | some _ => false)

/-! ## Property resolver (`get_property_by_folio`, lines 248-342) -/

/-- The two backing services tried by `get_property_by_folio`. -/
inductive Src where
  | ms70
  | fs0
deriving DecidableEq, Repr

/-- The provenance string recorded for each source. -/
def srcName : Src → String
  | .ms70 => "MapServer/70"
  | .fs0 => "FeatureServer/0"

/-- The single-quote character (used in WHERE clauses). -/
def sqC : Char := Char.ofNat 39

/-- A one-character string holding a single quote. -/
def sqS : String := String.mk [sqC]

/-- Model of `esc` (lines 260-261): double every embedded single quote,
`s.replace("'", "''")`. -/
def esc (s : String) : String :=
  String.mk (s.toList.flatMap fun c => if c = sqC then [sqC, sqC] else [c])

/-- An exact-match WHERE clause `field = '<escaped value>'`. -/
def whereEq (field v : String) : String :=
  field ++ " = " ++ sqS ++ esc v ++ sqS

/-- A substring WHERE clause `field LIKE '%<escaped value>%'`. -/
def whereLike (field v : String) : String :=
  field ++ " LIKE " ++ sqS ++ "%" ++ esc v ++ "%" ++ sqS

/-- The WHERE-clause candidates of `_query_mapserver70` (lines 270-275):
exact hyphenated match when the hyphenated form is non-empty, then — only
when exactly 13 digits were found — the exact digit match followed by the
`LIKE` fallback. -/
def mapserverWheres (hyphenated digits : String) : List String :=
  (if hyphenated ≠ "" then [whereEq "FOLIO" hyphenated] else []) ++
  (if digits ≠ "" ∧ digits.length = 13 then
      [whereEq "FOLIO" digits, whereLike "FOLIO" digits]
    else [])

/-- The ordered candidate names for the folio field tried by
`_query_featureserver0` (line 310). -/
def folioCands : List String :=
  ["folio", "folio_num", "folio_nbr", "folioid", "folio_number", "md_folio"]

/-- Model of `"folio" in k` for a lower-cased field name. -/
def containsFolio : List Char → Bool
  | [] => false
  | c :: rest => ("folio".toList.isPrefixOf (c :: rest)) || containsFolio rest

/-- Field-name discovery of `_query_featureserver0` (lines 308-317): the
layer metadata is a (lower-cased name, actual name) association list; try
the exact candidates in order, then the first name containing the substring
"folio", then the hardcoded default "folio". -/
def resolveFolioField (meta : List (String × String)) : String :=
  match folioCands.findSome? (fun cand => (meta.find? (fun kv => kv.1 = cand)).map (·.2)) with
  | some n => n
  | none =>
    match meta.find? (fun kv => containsFolio kv.1.toList) with
    | some kv => kv.2
    | none => "folio"

/-- The WHERE-clause candidates of `_query_featureserver0` (lines 325-329),
identical in structure to the MapServer ones but against the discovered
folio field. -/
def fsWheres (field hyphenated digits : String) : List String :=
  (if hyphenated ≠ "" then [whereEq field hyphenated] else []) ++
  (if digits ≠ "" ∧ digits.length = 13 then
      [whereEq field digits, whereLike field digits]
    else [])

/-- The per-candidate loop body shared by both source functions
(lines 276-281 / 330-334): query with the candidate WHERE clause, read
`(data or {}).get("features", [])` (a transport/service failure yields
`none` and hence an empty feature list), and stop at the first candidate
with a non-empty feature list, keeping its first feature and the clause. -/
def tryWheres {A : Type} (qf : String → Option (List A)) : List String → Option (A × String)
  | [] => none
  | w :: ws =>
    match qf w with
    | some (f :: _) => some (f, w)
    | _ => tryWheres qf ws

/-- A successful resolution: the first matching feature's attribute bag
plus provenance (which source answered, which WHERE clause matched).
The per-field re-mapping done by `_query_mapserver70` (lines 283-303) is a
pure rename of attribute keys and is modelled as the identity on an
abstract attribute bag; no claim concerns individual attribute fields. -/
structure Resolved (A : Type) where
  attributes : A
  source : String
  where_used : String
deriving DecidableEq, Repr

/-- Model of `_query_mapserver70` (lines 263-305) over a query oracle `q`. -/
def query_mapserver70 {A : Type} (q : Src → String → Option (List A))
    (hyphenated digits : String) : Option (Resolved A) :=
  (tryWheres (q .ms70) (mapserverWheres hyphenated digits)).map
    (fun fw => ⟨fw.1, "MapServer/70", fw.2⟩)

/-- Model of `_query_featureserver0` (lines 307-338) over a query oracle `q` and the
layer metadata. -/
def query_featureserver0 {A : Type} (q : Src → String → Option (List A))
    (meta : List (String × String)) (hyphenated digits : String) : Option (Resolved A) :=
  (tryWheres (q .fs0) (fsWheres (resolveFolioField meta) hyphenated digits)).map
    (fun fw => ⟨fw.1, "FeatureServer/0", fw.2⟩)

/-- Model of `get_property_by_folio` (lines 248-342): normalize the folio, build the
two source functions, and return `first() or second()` in the
caller-selected order. -/
def get_property_by_folio {A : Type} (q : Src → String → Option (List A))
    (meta : List (String × String)) (folio : String) (prefer_mapserver : Bool) :
    Option (Resolved A) :=
  if folio = "" then none
  else
    let raw := pyStrip folio
    let digits := String.mk (raw.toList.filter Char.isDigit)
    let hyphenated :=
      if digits ≠ "" then (if digits.length = 13 then hyphFmt digits else digits) else raw
    let go1 := fun (_ : Unit) =>
      if prefer_mapserver then query_mapserver70 q hyphenated digits
      else query_featureserver0 q meta hyphenated digits
    let go2 := fun (_ : Unit) =>
      if prefer_mapserver then query_featureserver0 q meta hyphenated digits
      else query_mapserver70 q hyphenated digits
    (go1 ()).orElse go2

/-- The folio field name each source queries: `FOLIO` on the MapServer,
the discovered field on the FeatureServer. -/
def srcField (meta : List (String × String)) : Src → String
  | .ms70 => "FOLIO"
  | .fs0 => resolveFolioField meta

/-- Modelled from the spec (§4.5): the ordered WHERE-clause candidates for
one source, built from the canonical identifier — exact hyphenated match,
exact 13-digit match, substring LIKE match, in that order. -/
def specCandidates (meta : List (String × String)) (hyphenated digits : String) (s : Src) :
    List String :=
  [whereEq (srcField meta s) hyphenated,
   whereEq (srcField meta s) digits,
   whereLike (srcField meta s) digits]

/-- Modelled from the spec (§4.5): the caller-selected source order,
primary then secondary. -/
def specOrder (prefer_mapserver : Bool) : List Src :=
  if prefer_mapserver then [.ms70, .fs0] else [.fs0, .ms70]

/-- Modelled from the spec (§4.5): try (source, WHERE clause) pairs in
order and return the first non-empty result with its provenance. -/
def firstHit {A : Type} (q : Src → String → Option (List A)) :
    List (Src × String) → Option (Resolved A)
  | [] => none
  | (s, w) :: rest =>
    match q s w with
    | some (f :: _) => some ⟨f, srcName s, w⟩
    | _ => firstHit q rest

/-- Modelled from the spec (§4.5): the whole resolver as a single flat
fallback chain over the ordered sources and their ordered candidates. -/
def specResolver {A : Type} (q : Src → String → Option (List A))
    (meta : List (String × String)) (folio : String) (prefer_mapserver : Bool) :
    Option (Resolved A) :=
  let digits := String.mk ((pyStrip folio).toList.filter Char.isDigit)
  let hyphenated := hyphFmt digits
  firstHit q
    ((specOrder prefer_mapserver).flatMap
      (fun s => (specCandidates meta hyphenated digits s).map (fun w => (s, w))))

/-! ## Geometry simplification (`_perp`, `_dp`, `simplify_rings`, lines 138-177) -/

/-- A vertex: (longitude, latitude) as rationals. -/
abbrev Pt : Type := ℚ × ℚ

/-- Model of `_perp` (lines 139-146) with the final square root elided: the
*squared* distance from `p` to the segment `a`-`b` (clamped projection).
All comparisons in `_dp` are between such distances and the nonnegative
tolerance, and squaring is strictly monotone on nonnegative reals, so the
branch structure is unchanged. -/
def perpSq (p a b : Pt) : ℚ :=
  if a = b then (p.1 - a.1) ^ 2 + (p.2 - a.2) ^ 2
  else
    let t0 := ((p.1 - a.1) * (b.1 - a.1) + (p.2 - a.2) * (b.2 - a.2)) /
      ((b.1 - a.1) ^ 2 + (b.2 - a.2) ^ 2)
    let t := max 0 (min 1 t0)
    (p.1 - (a.1 + t * (b.1 - a.1))) ^ 2 + (p.2 - (a.2 + t * (b.2 - a.2))) ^ 2

/-- One step of the maximum-deviation scan of `_dp` (lines 152-156). -/
def maxStep (pts : List Pt) (a b : Pt) (acc : ℚ × Option Nat) (i : Nat) : ℚ × Option Nat :=
  if acc.1 < perpSq (pts.getD i (0, 0)) a b then (perpSq (pts.getD i (0, 0)) a b, some i)
  else acc

/-- The `for i in range(1, len(pts)-1)` scan of `_dp`: the maximal squared
deviation and the index where it was first attained (`none` plays the role
of the sentinel `-1`; the update uses a strict comparison exactly as the
source does). -/
def maxLoop (pts : List Pt) (a b : Pt) : ℚ × Option Nat :=
  (List.range' 1 (pts.length - 2)).foldl (maxStep pts a b) (0, none)

/-- Model of `_dp` (lines 148-161), fuel-indexed: lists of at most two points are
returned unchanged; otherwise, when the maximal deviation exceeds the
tolerance the list is split at that index and both halves are simplified
recursively (`left[:-1] + right`), else only the endpoints survive.
The recursion of the source strictly decreases the list length (the split
index lies strictly between the endpoints), so `fuel = pts.length` is
always sufficient; the fuel-exhausted fallback returns the input unchanged
and is never reached from `dp`. -/
def dpF (epsSq : ℚ) : Nat → List Pt → List Pt
  | 0, pts => pts
  | fuel + 1, pts =>
    if pts.length ≤ 2 then pts
    else
      match (maxLoop pts (pts.head?.getD (0, 0)) (pts.getLast?.getD (0, 0))).2 with
      | some idx =>
        if epsSq < (maxLoop pts (pts.head?.getD (0, 0)) (pts.getLast?.getD (0, 0))).1 then
          (dpF epsSq fuel (pts.take (idx + 1))).dropLast ++ dpF epsSq fuel (pts.drop idx)
        else [pts.head?.getD (0, 0), pts.getLast?.getD (0, 0)]
      | none => [pts.head?.getD (0, 0), pts.getLast?.getD (0, 0)]

/-- Model of `_dp` at its natural fuel. -/
def dp (epsSq : ℚ) (pts : List Pt) : List Pt :=
  dpF epsSq pts.length pts

/-- Model of `eps_deg = max(1e-6, tolerance_meters / 111_320.0)` (line 164). -/
def epsDeg (tolerance_meters : ℚ) : ℚ :=
  max (1 / 1000000) (tolerance_meters / 111320)

/-- The per-ring body of `simplify_rings` (lines 166-176): skip-empty is
handled by the caller; compute `closed`, strip the duplicated closing
vertex from the open core of a closed ring, simplify, and re-append the
closing vertex if closure was lost. -/
def simplifyRing (epsSq : ℚ) (ring : List Pt) : List Pt :=
  let closed := decide (ring.head? = ring.getLast?)
  let core := if closed && decide (1 < ring.length) then ring.dropLast else ring
  match dp epsSq core with
  | [] => []
  | p :: rest =>
    if closed && decide ((p :: rest).getLast? ≠ some p) then (p :: rest) ++ [p]
    else p :: rest

/-- Model of `simplify_rings` (lines 163-177): empty rings are skipped, the others
are simplified with the squared angular tolerance. -/
def simplify_rings (rings : List (List Pt)) (tolerance_meters : ℚ) : List (List Pt) :=
  match rings with
  | [] => []
  | ring :: rest =>
    if ring = [] then simplify_rings rest tolerance_meters
    else simplifyRing ((epsDeg tolerance_meters) ^ 2) ring :: simplify_rings rest tolerance_meters

/-- The geometry preparation of `get_zones_in_polygon` (lines 409-411):
simplify (tolerance 25 m) only when the total vertex count exceeds 1500,
otherwise pass the rings through unchanged. -/
def zonesUseRings (rings : List (List Pt)) : List (List Pt) :=
  if 1500 < (rings.map List.length).sum then simplify_rings rings 25 else rings

/-! ## Area query pagination (`_paged`, lines 438-452) -/

/-- The `while` loop of `_paged`: `rows` accumulates features, `offset` is
the running `resultOffset`, `reqs` counts issued page requests.  Each
iteration requests `min(step, cap - len(rows))` records; an empty page or a
short page stops the loop, and the loop condition stops it at the cap. -/
def pagedGoF (svc : Nat → Nat → List Nat) (step cap : Nat) :
    Nat → List Nat → Nat → Nat → List Nat × Nat
  | 0, rows, _, reqs => (rows, reqs)
  | fuel + 1, rows, offset, reqs =>
    if rows.length < cap then
      let count := min step (cap - rows.length)
      let feats := svc offset count
      if feats = [] then (rows, reqs + 1)
      else
        let rows' := rows ++ feats
        if feats.length < count then (rows', reqs + 1)
        else pagedGoF svc step cap fuel rows' (offset + count) (reqs + 1)
    else (rows, reqs)

/-- Model of `_paged(base_params, step, cap)` over a mock page service: returns the
collected rows and the number of page requests issued.  Every loop
iteration that continues strictly grows `rows` while `rows.length < cap`
holds, so the loop runs at most `cap + 1` times and the fuel-exhausted arm
of `pagedGoF` is unreachable from here (fuel only makes the recursion
structural). -/
def paged (svc : Nat → Nat → List Nat) (step cap : Nat) : List Nat × Nat :=
  pagedGoF svc step cap (cap + 1) [] 0 0

/-- A mock service holding `n` records (numbered `0..n-1`): a request for
`count` records at `offset` returns the corresponding slice. -/
def mockPages (n : Nat) : Nat → Nat → List Nat :=
  fun offset count => ((List.range n).drop offset).take count

/-! ## Sales date-window filtering (`get_recent_sales_in_polygon`, lines 476-502) -/

/-- One cell of the sale-date column as pandas sees it: a numeric value, a
text value, or missing. -/
inductive Cell where
  | num (n : Int)
  | text (s : String)
  | null
deriving DecidableEq, Repr

/-- A sale record: an abstract row tag plus its sale-date cell (the other
attribute columns play no role in the date-window claims). -/
structure SaleRec where
  tag : Nat
  date : Cell
deriving DecidableEq, Repr

/-- Whether a cell can live in a numeric pandas dtype. -/
def isNumCell : Cell → Bool
  | .num _ => true
  | .null => true
  | .text _ => false

/-- Model of `pd.api.types.is_numeric_dtype` of the date column: a column whose
values are all numbers or missing gets a numeric dtype (int64/float64); any
string makes it `object`, which is not numeric. -/
def numericDtype (col : List Cell) : Bool :=
  col.all isNumCell

/-- Model of `pd.to_datetime(s, unit="ms", utc=True, errors="coerce")` per cell:
numbers are epoch-milliseconds (converted here to nanoseconds), missing
values coerce to `NaT` (`none`). -/
def parseNumBranch : Cell → Option Int
  | .num n => some (n * 1000000)
  | .null => none
  | .text _ => none

/-- Model of `pd.to_datetime(s, utc=True, errors="coerce")` per cell (the non-numeric
branch): *integers are interpreted as epoch-nanoseconds* (pandas' default
unit is "ns" when none is given), text is parsed by the date parser `tp`
(`none` when unparseable, via `errors="coerce"`), missing coerces to `NaT`. -/
def parseTextBranch (tp : String → Option Int) : Cell → Option Int
  | .num n => some n
  | .null => none
  | .text s => tp s

/-- The per-cell date parse the code performs, chosen by the column dtype
(lines 482-485). -/
def codeParse (tp : String → Option Int) (numeric : Bool) : Cell → Option Int :=
  if numeric then parseNumBranch else parseTextBranch tp

/-- Modelled from the spec (§4.6): the parse the claim intends — a numeric
sale-date field is epoch-milliseconds, a text field goes through the date
parser, a missing field stays missing. -/
def specParseCell (tp : String → Option Int) : Cell → Option Int
  | .num n => some (n * 1000000)
  | .text s => tp s
  | .null => none

/-- Model of `pd.Timestamp.utcnow().tz_localize("UTC")` (line 486).
`pd.Timestamp.utcnow()` returns a timezone-*aware* UTC timestamp, and
`Timestamp.tz_localize(tz)` raises `TypeError` whenever the timestamp is
already aware and `tz` is not `None` ("Cannot localize tz-aware Timestamp,
use tz_convert for conversions"): the cutoff expression therefore raises. -/
def utcnowLocalized (nowNs : Int) : Except String Int :=
  if true then
    .error "TypeError: Cannot localize tz-aware Timestamp, use tz_convert for conversions"
  else .ok nowNs

/-- The date-handling tail of `get_recent_sales_in_polygon`
(lines 473-502) for records that carry the `dateofsale_utc` column: an
empty result set returns an empty frame before any date handling; otherwise
the date column is parsed by dtype, the recency cutoff is computed (which
raises, see `utcnowLocalized`), and — had the cutoff been computed — the
frame would be filtered to `date >= cutoff` (dropping unparseable `NaT`
rows) and sorted by date descending. -/
def get_recent_sales_window (tp : String → Option Int) (nowNs : Int) (days : Nat)
    (recs : List SaleRec) : Except String (List SaleRec) :=
  if recs = [] then .ok []
  else
    let numeric := numericDtype (recs.map (·.date))
    let parse := codeParse tp numeric
    match utcnowLocalized nowNs with
    | .error e => .error e
    | .ok t =>
      let cutoff := t - (days : Int) * 86400 * 1000000000
      let kept := recs.filter fun r =>
        match parse r.date with
        | some d => decide (cutoff ≤ d)
        | none => false
      .ok (kept.mergeSort fun r1 r2 => decide ((parse r2.date).getD 0 ≤ (parse r1.date).getD 0))

/-! ## Bulk resolver (`bulk_properties_by_folios`, lines 344-388) -/

/-- The slice of a resolved record that the bulk rows depend on: the
server-reported folio attribute (`a.get('folio')`, `none` when absent). -/
structure BulkAttrs where
  folio : Option String
deriving DecidableEq, Repr

/-- One bulk outcome row, restricted to the two columns the claims are
about: the `Folio` cell and the `Status` cell (`"OK"`, `"NOT FOUND"`, or
`"ERROR: <message>"`).  The other columns of an OK row are attribute
pass-throughs that no claim mentions. -/
structure BulkRow where
  folio : String
  status : String
deriving DecidableEq, Repr

/-- The loop body of `bulk_properties_by_folios` (lines 347-383) for one
input, over a resolver oracle: normalize the input
(`key = hyph or digits or str(fol)`), call the resolver (`Except.error`
models the `except Exception` branch, `Option` the found/not-found result,
where `none` also covers a falsy attribute bag), and build the row.
`a.get('folio') or key` falls back to the key when the attribute is absent
or empty.  The `time.sleep` throttle has no effect on the rows. -/
def bulkRowOf (resolve : String → Except String (Option BulkAttrs)) (fol : String) : BulkRow :=
  let hd := format_md_folio fol
  let key := if hd.1 ≠ "" then hd.1 else if hd.2 ≠ "" then hd.2 else fol
  match resolve key with
  | .error e => { folio := key, status := "ERROR: " ++ e }
  | .ok none => { folio := key, status := "NOT FOUND" }
  | .ok (some a) =>
    { folio := match a.folio with
        | some s => if s = "" then key else s
        | none => key,
      status := "OK" }

/-- Model of `df.drop_duplicates(subset=["Folio"], keep="first")` (lines 386-387):
keep the first row for each `Folio` value, in order. -/
def dropDupFolio : List BulkRow → List String → List BulkRow
  | [], _ => []
  | r :: rest, seen =>
    if r.folio ∈ seen then dropDupFolio rest seen
    else r :: dropDupFolio rest (r.folio :: seen)

/-- Model of `bulk_properties_by_folios` (lines 344-388): build one row per input in
order, then de-duplicate the rows by their `Folio` value keeping the first
occurrence. -/
def bulk_properties_by_folios (resolve : String → Except String (Option BulkAttrs))
    (folio_list : List String) : List BulkRow :=
  dropDupFolio (folio_list.map (bulkRowOf resolve)) []

/-! ## Theorems -/

/-! ### Folio normalizer: structure of the parsed output -/

theorem findall13_nil : findall13 [] = [] := rfl

theorem findall13F_fuel_irrel : ∀ (f1 : Nat) (s : List Char), s.length ≤ f1 →
    ∀ (f2 : Nat), s.length ≤ f2 → findall13F f1 s = findall13F f2 s := by
  intro f1
  induction f1 with
  | zero =>
    intro s hs f2 _
    have : s = [] := List.length_eq_zero.1 (Nat.le_zero.1 hs)
    subst this
    cases f2 <;> rfl
  | succ f1 ih =>
    intro s hs f2 h2
    match s with
    | [] => cases f2 <;> rfl
    | c :: rest =>
      cases f2 with
      | zero => simp at h2
      | succ f2 =>
        simp only [findall13F]
        by_cases hcond : ((c :: rest).take 13).length = 13 ∧ ((c :: rest).take 13).all Char.isDigit
        · rw [if_pos hcond, if_pos hcond]
          have hd1 : ((c :: rest).drop 13).length ≤ f1 := by
            simp only [List.length_drop, List.length_cons]
            simp only [List.length_cons] at hs
            omega
          have hd2 : ((c :: rest).drop 13).length ≤ f2 := by
            simp only [List.length_drop, List.length_cons]
            simp only [List.length_cons] at h2
            omega
          rw [ih _ hd1 _ hd2]
        · rw [if_neg hcond, if_neg hcond]
          exact ih rest (by simp at hs; omega) f2 (by simp at h2; omega)

theorem findall13_cons_eq (c : Char) (rest : List Char) :
    findall13 (c :: rest) =
      if ((c :: rest).take 13).length = 13 ∧ ((c :: rest).take 13).all Char.isDigit then
        (c :: rest).take 13 :: findall13 ((c :: rest).drop 13)
      else findall13 rest := by
  show findall13F (rest.length + 1) (c :: rest) = _
  simp only [findall13F]
  by_cases hcond : ((c :: rest).take 13).length = 13 ∧ ((c :: rest).take 13).all Char.isDigit
  · rw [if_pos hcond, if_pos hcond]
    have := findall13F_fuel_irrel rest.length ((c :: rest).drop 13)
      (by simp only [List.length_drop, List.length_cons]; omega)
      ((c :: rest).drop 13).length le_rfl
    rw [this]
    rfl
  · rw [if_neg hcond, if_neg hcond]
    rfl

theorem len13_explicit (d : List Char) (h : d.length = 13) :
    ∃ a b c e f g h1 i j k l m n,
      d = [a, b, c, e, f, g, h1, i, j, k, l, m, n] := by
  obtain _ | ⟨a, d⟩ := d; · simp only [List.length_nil] at h; omega
  obtain _ | ⟨b, d⟩ := d; · simp only [List.length_cons, List.length_nil] at h; omega
  obtain _ | ⟨c, d⟩ := d; · simp only [List.length_cons, List.length_nil] at h; omega
  obtain _ | ⟨e, d⟩ := d; · simp only [List.length_cons, List.length_nil] at h; omega
  obtain _ | ⟨f, d⟩ := d; · simp only [List.length_cons, List.length_nil] at h; omega
  obtain _ | ⟨g, d⟩ := d; · simp only [List.length_cons, List.length_nil] at h; omega
  obtain _ | ⟨h1, d⟩ := d; · simp only [List.length_cons, List.length_nil] at h; omega
  obtain _ | ⟨i, d⟩ := d; · simp only [List.length_cons, List.length_nil] at h; omega
  obtain _ | ⟨j, d⟩ := d; · simp only [List.length_cons, List.length_nil] at h; omega
  obtain _ | ⟨k, d⟩ := d; · simp only [List.length_cons, List.length_nil] at h; omega
  obtain _ | ⟨l, d⟩ := d; · simp only [List.length_cons, List.length_nil] at h; omega
  obtain _ | ⟨m, d⟩ := d; · simp only [List.length_cons, List.length_nil] at h; omega
  obtain _ | ⟨n, d⟩ := d; · simp only [List.length_cons, List.length_nil] at h; omega
  obtain _ | ⟨o, d⟩ := d
  · exact ⟨a, b, c, e, f, g, h1, i, j, k, l, m, n, rfl⟩
  · simp only [List.length_cons, List.length_nil] at h; omega

theorem mem_findall13 : ∀ (s : List Char), ∀ x ∈ findall13 s,
    x.length = 13 ∧ x.all Char.isDigit = true := by
  have H : ∀ (n : Nat) (s : List Char), s.length ≤ n → ∀ x ∈ findall13 s,
      x.length = 13 ∧ x.all Char.isDigit = true := by
    intro n
    induction n with
    | zero =>
      intro s hs x hx
      have : s = [] := List.length_eq_zero.1 (Nat.le_zero.1 hs)
      subst this
      simp [findall13_nil] at hx
    | succ n ih =>
      intro s hs x hx
      match s with
      | [] => simp [findall13_nil] at hx
      | c :: rest =>
        by_cases hcond : ((c :: rest).take 13).length = 13 ∧ ((c :: rest).take 13).all Char.isDigit
        · rw [findall13_cons_eq, if_pos hcond, List.mem_cons] at hx
          rcases hx with hx | hx
          · subst hx; exact hcond
          · exact ih ((c :: rest).drop 13) (by simp [List.length_drop] at *; omega) x hx
        · rw [findall13_cons_eq, if_neg hcond] at hx
          exact ih rest (by simp at hs; omega) x hx
  intro s
  exact H s.length s le_rfl

theorem hyphChars_inj (d1 d2 : List Char) (h1 : d1.length = 13) (h2 : d2.length = 13)
    (he : hyphChars d1 = hyphChars d2) : d1 = d2 := by
  obtain ⟨a, b, c, e, f, g, h1', i, j, k, l, m, n, rfl⟩ := len13_explicit d1 h1
  obtain ⟨a', b', c', e', f', g', h1'', i', j', k', l', m', n', rfl⟩ := len13_explicit d2 h2
  simp [hyphChars] at he
  obtain ⟨rfl, rfl, rfl, rfl, rfl, rfl, rfl, rfl, rfl, rfl, rfl, rfl, rfl⟩ := he
  rfl

theorem mem_dedupLoop : ∀ (ds seen : List (List Char)) (x : String),
    x ∈ dedupLoop ds seen → ∃ d, d ∈ ds ∧ d ∉ seen ∧ x = String.mk (hyphChars d) := by
  intro ds
  induction ds with
  | nil => intro seen x hx; simp [dedupLoop] at hx
  | cons d rest ih =>
    intro seen x hx
    by_cases hds : d ∈ seen
    · rw [dedupLoop, if_pos hds] at hx
      obtain ⟨d', hd1, hd2, hd3⟩ := ih seen x hx
      exact ⟨d', List.mem_cons_of_mem _ hd1, hd2, hd3⟩
    · rw [dedupLoop, if_neg hds, List.mem_cons] at hx
      rcases hx with hx | hx
      · exact ⟨d, List.mem_cons_self _ _, hds, hx⟩
      · obtain ⟨d', hd1, hd2, hd3⟩ := ih (d :: seen) x hx
        refine ⟨d', List.mem_cons_of_mem _ hd1, fun hc => hd2 (List.mem_cons_of_mem _ hc), hd3⟩

theorem nodup_dedupLoop : ∀ (ds seen : List (List Char)),
    (∀ d ∈ ds, d.length = 13) → (dedupLoop ds seen).Nodup := by
  intro ds
  induction ds with
  | nil => intro seen _; simp [dedupLoop]
  | cons d rest ih =>
    intro seen hlen
    by_cases hds : d ∈ seen
    · rw [dedupLoop, if_pos hds]
      exact ih seen (fun d' hd' => hlen d' (List.mem_cons_of_mem _ hd'))
    · rw [dedupLoop, if_neg hds, List.nodup_cons]
      constructor
      · intro hmem
        obtain ⟨d', hd1, hd2, hd3⟩ := mem_dedupLoop rest (d :: seen) _ hmem
        have hinj : d' = d := by
          have hcc : hyphChars d = hyphChars d' := by
            have := congrArg String.toList hd3
            simpa using this
          exact hyphChars_inj d' d
            (hlen d' (List.mem_cons_of_mem _ hd1)) (hlen d (List.mem_cons_self _ _)) hcc.symm
        exact hd2 (hinj ▸ List.mem_cons_self _ _)
      · exact ih (d :: seen) (fun d' hd' => hlen d' (List.mem_cons_of_mem _ hd'))

theorem mem_normalize_shape (text : String) (s : String) (hs : s ∈ normalize_folios text) :
    ∃ d, d.length = 13 ∧ d.all Char.isDigit = true ∧ s = String.mk (hyphChars d) := by
  unfold normalize_folios at hs
  split at hs
  · simp at hs
  · obtain ⟨d, hd1, _, hd3⟩ := mem_dedupLoop _ [] s hs
    obtain ⟨h13, hdig⟩ := mem_findall13 _ d hd1
    exact ⟨d, h13, hdig, hd3⟩

/-- C10: every element of the bulk-identifier parser's output is in
hyphenated display form matching `\d{2}-\d{4}-\d{3}-\d{4}` (never a bare
13-digit string), and the output list contains no duplicate elements. -/
theorem C10_output_hyphenated_and_nodup (text : String) :
    (∀ s ∈ normalize_folios text, isHyphFolio s = true) ∧ (normalize_folios text).Nodup := by
  constructor
  · intro s hs
    obtain ⟨d, h13, hdig, rfl⟩ := mem_normalize_shape text s hs
    obtain ⟨a, b, c, e, f, g, h1, i, j, k, l, m, n, rfl⟩ := len13_explicit d h13
    simp only [List.all_cons, List.all_nil, Bool.and_true, Bool.and_eq_true] at hdig
    obtain ⟨ha, hb, hc, he, hf, hg, hh, hi, hj, hk, hl, hm, hn⟩ := hdig
    simp [isHyphFolio, hyphChars, ha, hb, hc, he, hf, hg, hh, hi, hj, hk, hl, hm, hn]
  · unfold normalize_folios
    split
    · simp
    · exact nodup_dedupLoop _ [] (fun d hd => (mem_findall13 _ d hd).1)

/-! ### Folio normalizer: re-parsing the parser's own output -/

theorem suffix_append_cases {α : Type} (l₁ l₂ t : List α) (h : t <:+ l₁ ++ l₂) :
    t <:+ l₂ ∨ ∃ u, u <:+ l₁ ∧ t = u ++ l₂ := by
  induction l₁ with
  | nil => exact Or.inl (by simpa using h)
  | cons a l₁ ih =>
    rw [List.cons_append, List.suffix_cons_iff] at h
    rcases h with h | h
    · exact Or.inr ⟨a :: l₁, List.suffix_refl _, by simpa using h⟩
    · rcases ih h with h' | ⟨u, hu, rfl⟩
      · exact Or.inl h'
      · exact Or.inr ⟨u, hu.trans (List.suffix_cons a l₁), rfl⟩

theorem suffix_eq_drop {α : Type} (t l : List α) (h : t <:+ l) :
    t = l.drop (l.length - t.length) := by
  obtain ⟨pre, rfl⟩ := h
  have : (pre ++ t).length - t.length = pre.length := by
    simp [List.length_append]
  rw [this, List.drop_left]

theorem sep_digit (c : Char) (hc : c.isDigit = true) : sepToSpace c = c := by
  rw [sepToSpace, if_neg]
  rintro (rfl | rfl | rfl | rfl | rfl) <;> exact absurd hc (by decide)

theorem map_sepToSpace_block (d : List Char) (hdig : d.all Char.isDigit = true) :
    (hyphChars d).map sepToSpace = hyphChars d := by
  have hmem : ∀ c ∈ hyphChars d, sepToSpace c = c := by
    intro c hc
    have : c = '-' ∨ c ∈ d := by
      simp only [hyphChars, List.mem_append, List.mem_cons] at hc
      rcases hc with hc | rfl | hc | rfl | hc | rfl | hc
      · exact Or.inr (List.take_subset _ _ hc)
      · exact Or.inl rfl
      · exact Or.inr (List.drop_subset _ _ (List.take_subset _ _ hc))
      · exact Or.inl rfl
      · exact Or.inr (List.drop_subset _ _ (List.take_subset _ _ hc))
      · exact Or.inl rfl
      · exact Or.inr (List.drop_subset _ _ (List.take_subset _ _ hc))
    rcases this with rfl | hcd
    · decide
    · exact sep_digit c (by
        have := List.all_eq_true.1 hdig c hcd
        simpa using this)
  calc (hyphChars d).map sepToSpace = (hyphChars d).map id := List.map_congr_left hmem
    _ = hyphChars d := List.map_id _

theorem hyphBlock_window (d : List Char) (h13 : d.length = 13) (u : List Char)
    (hu : u <:+ hyphChars d) (hul : 13 ≤ u.length) :
    (u.take 13).all Char.isDigit = false := by
  obtain ⟨a, b, c, e, f, g, h1, i, j, k, l, m, n, rfl⟩ := len13_explicit d h13
  have hdash : ('-').isDigit = false := by decide
  have hblock : (hyphChars [a, b, c, e, f, g, h1, i, j, k, l, m, n]).length = 16 := rfl
  have hud := suffix_eq_drop u _ hu
  rw [hblock] at hud
  have h16 : u.length ≤ 16 := by
    have := hu.length_le
    simpa [hblock] using this
  interval_cases hn : u.length
  · rw [hud]
    simp [hyphChars, List.all_cons, hdash]
  · rw [hud]
    simp [hyphChars, List.all_cons, hdash]
  · rw [hud]
    simp [hyphChars, List.all_cons, hdash]
  · rw [hud]
    simp [hyphChars, List.all_cons, hdash]

theorem joinCommaChars_cons₂ (b c : List Char) (rest : List (List Char)) :
    joinCommaChars (b :: c :: rest) = b ++ ',' :: joinCommaChars (c :: rest) := rfl

theorem noRun_mapped_join : ∀ (bs : List (List Char)),
    (∀ b ∈ bs, ∃ d, d.length = 13 ∧ d.all Char.isDigit = true ∧ b = hyphChars d) →
    ∀ t, t <:+ (joinCommaChars bs).map sepToSpace → 13 ≤ t.length →
      (t.take 13).all Char.isDigit = false := by
  have hsp : (' ').isDigit = false := by decide
  intro bs
  induction bs with
  | nil =>
    intro _ t ht hlen
    rw [show joinCommaChars [] = [] from rfl] at ht
    simp only [List.map_nil, List.suffix_nil] at ht
    subst ht
    simp at hlen
  | cons b rest ih =>
    intro hshape t ht hlen
    obtain ⟨d, hd13, hddig, rfl⟩ := hshape _ (List.mem_cons_self _ _)
    match rest with
    | [] =>
      rw [show joinCommaChars [hyphChars d] = hyphChars d from rfl,
        map_sepToSpace_block d hddig] at ht
      exact hyphBlock_window d hd13 t ht hlen
    | b2 :: rest' =>
      rw [joinCommaChars_cons₂, List.map_append, map_sepToSpace_block d hddig,
        List.map_cons, show sepToSpace ',' = ' ' from by decide] at ht
      rcases suffix_append_cases _ _ _ ht with ht' | ⟨u, hu, rfl⟩
      · rw [List.suffix_cons_iff] at ht'
        rcases ht' with rfl | ht'
        · rw [List.take_succ_cons, List.all_cons, hsp]
          simp
        · exact ih (fun b hb => hshape b (List.mem_cons_of_mem _ hb)) t ht' hlen
      · by_cases hcase : 13 ≤ u.length
        · rw [List.take_append_eq_append_take,
            show 13 - u.length = 0 from by omega, List.take_zero, List.append_nil]
          exact hyphBlock_window d hd13 u hu hcase
        · obtain ⟨kk, hkk⟩ : ∃ kk, 13 - u.length = kk + 1 := ⟨13 - u.length - 1, by omega⟩
          rw [List.take_append_eq_append_take, hkk, List.take_succ_cons,
            List.all_append, List.all_cons, hsp]
          simp

theorem findall13_cons_neg (c : Char) (rest : List Char)
    (hc : ¬(((c :: rest).take 13).length = 13 ∧ ((c :: rest).take 13).all Char.isDigit)) :
    findall13 (c :: rest) = findall13 rest := by
  rw [findall13_cons_eq, if_neg hc]

theorem findall13_eq_nil : ∀ (s : List Char),
    (∀ t, t <:+ s → 13 ≤ t.length → (t.take 13).all Char.isDigit = false) →
    findall13 s = [] := by
  have H : ∀ (n : Nat) (s : List Char), s.length ≤ n →
      (∀ t, t <:+ s → 13 ≤ t.length → (t.take 13).all Char.isDigit = false) →
      findall13 s = [] := by
    intro n
    induction n with
    | zero =>
      intro s hs _
      have : s = [] := List.length_eq_zero.1 (Nat.le_zero.1 hs)
      subst this
      rfl
    | succ n ih =>
      intro s hs h
      match s with
      | [] => rfl
      | c :: rest =>
        have hcond : ¬(((c :: rest).take 13).length = 13 ∧ ((c :: rest).take 13).all Char.isDigit) := by
          rintro ⟨hln, hall⟩
          by_cases h13s : 13 ≤ (c :: rest).length
          · rw [h (c :: rest) (List.suffix_refl _) h13s] at hall
            exact Bool.false_ne_true hall
          · rw [List.length_take] at hln
            omega
        rw [findall13_cons_neg c rest hcond]
        exact ih rest (by simp at hs; omega)
          (fun t ht hlt => h t (ht.trans (List.suffix_cons c rest)) hlt)
  intro s
  exact H s.length s le_rfl

theorem reparse_output_empty (text : String) :
    normalize_folios (joinComma (normalize_folios text)) = [] := by
  rw [normalize_folios]
  split
  · rfl
  · have hshape : ∀ b ∈ (normalize_folios text).map String.toList,
        ∃ d, d.length = 13 ∧ d.all Char.isDigit = true ∧ b = hyphChars d := by
      intro b hb
      rw [List.mem_map] at hb
      obtain ⟨s, hs, rfl⟩ := hb
      obtain ⟨d, h13, hdig, rfl⟩ := mem_normalize_shape text s hs
      exact ⟨d, h13, hdig, rfl⟩
    have h0 : findall13 ((joinComma (normalize_folios text)).toList.map sepToSpace) = [] := by
      have htl : (joinComma (normalize_folios text)).toList
          = joinCommaChars ((normalize_folios text).map String.toList) := rfl
      rw [htl]
      exact findall13_eq_nil _ (noRun_mapped_join _ hshape)
    rw [h0]
    rfl

theorem map_sepToSpace_digits (d : List Char) (hdig : d.all Char.isDigit = true) :
    d.map sepToSpace = d := by
  have hmem : ∀ c ∈ d, sepToSpace c = c := by
    intro c hc
    exact sep_digit c (by simpa using List.all_eq_true.1 hdig c hc)
  calc d.map sepToSpace = d.map id := List.map_congr_left hmem
    _ = d := List.map_id _

theorem findall13_block_prefix (d rest : List Char) (h13 : d.length = 13)
    (hdig : d.all Char.isDigit = true) :
    findall13 (d ++ rest) = d :: findall13 rest := by
  obtain ⟨c0, d', rfl⟩ : ∃ c0 d', d = c0 :: d' := by
    match d with
    | [] => simp at h13
    | c0 :: d' => exact ⟨c0, d', rfl⟩
  have htake : ((c0 :: d') ++ rest).take 13 = c0 :: d' := by
    rw [← h13]; exact List.take_left _ _
  have hdrop : ((c0 :: d') ++ rest).drop 13 = rest := by
    rw [← h13]; exact List.drop_left _ _
  rw [List.cons_append, findall13_cons_eq, ← List.cons_append, htake, hdrop,
    if_pos ⟨h13, hdig⟩]

theorem findall13_space_cons (d : List Char) : findall13 (' ' :: d) = findall13 d := by
  apply findall13_cons_neg
  rintro ⟨hln, hall⟩
  have : (' ' :: d).take 13 = ' ' :: d.take 12 := List.take_succ_cons
  rw [this, List.all_cons] at hall
  exact absurd hall (by simp)

theorem findall13_exact (d : List Char) (h13 : d.length = 13)
    (hdig : d.all Char.isDigit = true) : findall13 d = [d] := by
  have := findall13_block_prefix d [] h13 hdig
  simpa [findall13_nil] using this

theorem parse_dup_pair (d : List Char) (h13 : d.length = 13)
    (hdig : d.all Char.isDigit = true) :
    normalize_folios (String.mk (d ++ ',' :: d)) = [String.mk (hyphChars d)] := by
  have hne : String.mk (d ++ ',' :: d) ≠ "" := by
    intro h
    have := congrArg String.toList h
    simp at this
  rw [normalize_folios, if_neg hne]
  have hmap : (String.mk (d ++ ',' :: d)).toList.map sepToSpace = d ++ ' ' :: d := by
    show (d ++ ',' :: d).map sepToSpace = _
    rw [List.map_append, List.map_cons, map_sepToSpace_digits d hdig,
      show sepToSpace ',' = ' ' from by decide]
  rw [hmap, findall13_block_prefix d (' ' :: d) h13 hdig, findall13_space_cons,
    findall13_exact d h13 hdig]
  rw [dedupLoop, if_neg (List.not_mem_nil d), dedupLoop, if_pos (List.mem_cons_self d []),
    dedupLoop]

/-- C6 counterexample: `parse_bulk` is *not* idempotent under re-parsing its
own (comma-joined) output: parsing "1112223334445" yields the hyphenated
entry "11-1222-333-4445", and re-parsing that output yields the empty list,
not the same list. -/
theorem C6_not_idempotent :
    normalize_folios (joinComma (normalize_folios "1112223334445"))
      ≠ normalize_folios "1112223334445" := by decide

/-- C6 (amended): bulk-identifier parsing deduplicates by digit value — an
input repeating the same 13-digit run yields exactly one entry, first-seen
order preserved — but it is not idempotent under re-parsing its own output:
because every output entry is hyphenated and the parser only extracts
contiguous 13-digit runs, re-parsing the comma-joined output of any input
always yields the empty list. -/
theorem C6_amended_dedup_reparse :
    (∀ text : String, normalize_folios (joinComma (normalize_folios text)) = []) ∧
    (∀ d : List Char, d.length = 13 → d.all Char.isDigit = true →
      normalize_folios (String.mk (d ++ ',' :: d)) = [String.mk (hyphChars d)]) :=
  ⟨reparse_output_empty, parse_dup_pair⟩

/-- Witness for `C6_amended_dedup_reparse` at a concrete input. -/
theorem C6_amended_dedup_reparse_w :
    normalize_folios (joinComma (normalize_folios "1112223334445")) = [] ∧
    normalize_folios (String.mk ("1112223334445".toList ++ ',' :: "1112223334445".toList))
      = [String.mk (hyphChars "1112223334445".toList)] :=
  ⟨C6_amended_dedup_reparse.1 "1112223334445",
   C6_amended_dedup_reparse.2 "1112223334445".toList (by decide) (by decide)⟩

/-! ### Property resolver: candidate order, source order and provenance -/

theorem string_mk_ne_empty (l : List Char) (h : l ≠ []) : String.mk l ≠ "" := by
  intro he
  apply h
  have := congrArg String.toList he
  simpa using this

theorem hyphChars_ne_nil (d : List Char) (h : d ≠ []) : hyphChars d ≠ [] := by
  match d with
  | [] => exact absurd rfl h
  | c :: d' => simp [hyphChars]

theorem firstHit_append {A : Type} (q : Src → String → Option (List A))
    (l1 l2 : List (Src × String)) :
    firstHit q (l1 ++ l2) = (firstHit q l1).orElse (fun _ => firstHit q l2) := by
  induction l1 with
  | nil => rfl
  | cons sw rest ih =>
    obtain ⟨s, w⟩ := sw
    cases hq : q s w with
    | none => simp [firstHit, hq, ih]
    | some fs =>
      cases fs with
      | nil => simp [firstHit, hq, ih]
      | cons f fs' => simp [firstHit, hq]

theorem tryWheres_as_firstHit {A : Type} (q : Src → String → Option (List A))
    (s : Src) (ws : List String) :
    firstHit q (ws.map (fun w => (s, w)))
      = (tryWheres (q s) ws).map (fun fw => ⟨fw.1, srcName s, fw.2⟩) := by
  induction ws with
  | nil => rfl
  | cons w ws ih =>
    cases hq : q s w with
    | none => simp [firstHit, tryWheres, hq, ih]
    | some fs =>
      cases fs with
      | nil => simp [firstHit, tryWheres, hq, ih]
      | cons f fs' => simp [firstHit, tryWheres, hq]

theorem mapserverWheres_canonical (h d : String) (hh : h ≠ "") (hd : d ≠ "")
    (h13 : d.length = 13) :
    mapserverWheres h d = [whereEq "FOLIO" h, whereEq "FOLIO" d, whereLike "FOLIO" d] := by
  rw [mapserverWheres, if_pos hh, if_pos ⟨hd, h13⟩]
  rfl

theorem fsWheres_canonical (field h d : String) (hh : h ≠ "") (hd : d ≠ "")
    (h13 : d.length = 13) :
    fsWheres field h d = [whereEq field h, whereEq field d, whereLike field d] := by
  rw [fsWheres, if_pos hh, if_pos ⟨hd, h13⟩]
  rfl

theorem specResolver_unfold {A : Type} (q : Src → String → Option (List A))
    (meta : List (String × String)) (folio : String) (prefer_mapserver : Bool) :
    specResolver q meta folio prefer_mapserver
      = (firstHit q ((specCandidates meta
            (hyphFmt (String.mk ((pyStrip folio).toList.filter Char.isDigit)))
            (String.mk ((pyStrip folio).toList.filter Char.isDigit))
            (if prefer_mapserver then Src.ms70 else Src.fs0)).map
              (fun w => ((if prefer_mapserver then Src.ms70 else Src.fs0), w)))).orElse
          (fun _ => firstHit q ((specCandidates meta
            (hyphFmt (String.mk ((pyStrip folio).toList.filter Char.isDigit)))
            (String.mk ((pyStrip folio).toList.filter Char.isDigit))
            (if prefer_mapserver then Src.fs0 else Src.ms70)).map
              (fun w => ((if prefer_mapserver then Src.fs0 else Src.ms70), w)))) := by
  cases prefer_mapserver with
  | true =>
    simp only [specResolver, specOrder, if_true]
    rw [show ([Src.ms70, Src.fs0].flatMap (fun s => (specCandidates meta
        (hyphFmt (String.mk ((pyStrip folio).toList.filter Char.isDigit)))
        (String.mk ((pyStrip folio).toList.filter Char.isDigit)) s).map (fun w => (s, w))))
      = (specCandidates meta
          (hyphFmt (String.mk ((pyStrip folio).toList.filter Char.isDigit)))
          (String.mk ((pyStrip folio).toList.filter Char.isDigit)) Src.ms70).map
            (fun w => (Src.ms70, w)) ++
        (specCandidates meta
          (hyphFmt (String.mk ((pyStrip folio).toList.filter Char.isDigit)))
          (String.mk ((pyStrip folio).toList.filter Char.isDigit)) Src.fs0).map
            (fun w => (Src.fs0, w)) from by simp]
    rw [firstHit_append]
  | false =>
    simp only [specResolver, specOrder, Bool.false_eq_true, if_false]
    rw [show ([Src.fs0, Src.ms70].flatMap (fun s => (specCandidates meta
        (hyphFmt (String.mk ((pyStrip folio).toList.filter Char.isDigit)))
        (String.mk ((pyStrip folio).toList.filter Char.isDigit)) s).map (fun w => (s, w))))
      = (specCandidates meta
          (hyphFmt (String.mk ((pyStrip folio).toList.filter Char.isDigit)))
          (String.mk ((pyStrip folio).toList.filter Char.isDigit)) Src.fs0).map
            (fun w => (Src.fs0, w)) ++
        (specCandidates meta
          (hyphFmt (String.mk ((pyStrip folio).toList.filter Char.isDigit)))
          (String.mk ((pyStrip folio).toList.filter Char.isDigit)) Src.ms70).map
            (fun w => (Src.ms70, w)) from by simp]
    rw [firstHit_append]

/-- C1: for canonical (13-digit) identifiers, `get_property_by_folio` is
exactly the flat spec-side fallback chain: within each source the ordered
candidates are exact hyphenated match, exact 13-digit match, then LIKE
match, first non-empty feature list wins; the two sources are tried in the
caller-selected order; and the result carries the answering source's name
and the exact WHERE clause that matched. -/
theorem C1_resolver_order_and_provenance {A : Type} (q : Src → String → Option (List A))
    (meta : List (String × String)) (folio : String) (prefer_mapserver : Bool)
    (h13 : (String.mk ((pyStrip folio).toList.filter Char.isDigit)).length = 13) :
    get_property_by_folio q meta folio prefer_mapserver
      = specResolver q meta folio prefer_mapserver := by
  have hfol : folio ≠ "" := by
    intro h
    subst h
    exact absurd h13 (by decide)
  have hdig_ne : String.mk ((pyStrip folio).toList.filter Char.isDigit) ≠ "" := by
    apply string_mk_ne_empty
    intro h
    rw [show (String.mk ((pyStrip folio).toList.filter Char.isDigit)).length
        = ((pyStrip folio).toList.filter Char.isDigit).length from rfl, h] at h13
    exact absurd h13 (by decide)
  have hlen13 : ((pyStrip folio).toList.filter Char.isDigit).length = 13 := h13
  have hhyph_ne : hyphFmt (String.mk ((pyStrip folio).toList.filter Char.isDigit)) ≠ "" := by
    apply string_mk_ne_empty
    apply hyphChars_ne_nil
    intro h
    rw [show (String.mk ((pyStrip folio).toList.filter Char.isDigit)).toList
        = (pyStrip folio).toList.filter Char.isDigit from rfl] at h
    rw [h] at hlen13
    simp at hlen13
  have hms : query_mapserver70 q
      (hyphFmt (String.mk ((pyStrip folio).toList.filter Char.isDigit)))
      (String.mk ((pyStrip folio).toList.filter Char.isDigit))
      = firstHit q ((specCandidates meta
          (hyphFmt (String.mk ((pyStrip folio).toList.filter Char.isDigit)))
          (String.mk ((pyStrip folio).toList.filter Char.isDigit)) Src.ms70).map
            (fun w => (Src.ms70, w))) := by
    rw [query_mapserver70, tryWheres_as_firstHit,
      mapserverWheres_canonical _ _ hhyph_ne hdig_ne h13]
    rfl
  have hfs : query_featureserver0 q meta
      (hyphFmt (String.mk ((pyStrip folio).toList.filter Char.isDigit)))
      (String.mk ((pyStrip folio).toList.filter Char.isDigit))
      = firstHit q ((specCandidates meta
          (hyphFmt (String.mk ((pyStrip folio).toList.filter Char.isDigit)))
          (String.mk ((pyStrip folio).toList.filter Char.isDigit)) Src.fs0).map
            (fun w => (Src.fs0, w))) := by
    rw [query_featureserver0, tryWheres_as_firstHit,
      fsWheres_canonical _ _ _ hhyph_ne hdig_ne h13]
    rfl
  rw [specResolver_unfold]
  simp only [get_property_by_folio, if_neg hfol, if_pos hdig_ne, if_pos h13]
  cases prefer_mapserver with
  | true =>
    simp only [reduceIte]
    rw [hms, hfs]
  | false =>
    simp only [Bool.false_eq_true, if_false]
    rw [hms, hfs]

/-- Witness for `C1_resolver_order_and_provenance` at a concrete folio and
oracle. -/
theorem C1_resolver_order_and_provenance_w :
    (String.mk ((pyStrip "0102030405060").toList.filter Char.isDigit)).length = 13 ∧
    get_property_by_folio (A := Nat) (fun _ _ => some [7]) [] "0102030405060" true
      = specResolver (fun _ _ => some [7]) [] "0102030405060" true :=
  ⟨by decide, C1_resolver_order_and_provenance _ _ _ _ (by decide)⟩

/-! ### Property resolver: failure outcome (C4) and client error handling (C5) -/

/-- C4 counterexample: a lookup whose every transport attempt fails
(`arcgis_query` returns `none`) and a lookup whose every query succeeds with
zero matches produce the *same* resolver outcome `none` — the Property
Resolver's failure value does not let the caller tell "this parcel doesn't
exist" apart from "the service could not be reached". -/
theorem C4_failure_modes_indistinguishable :
    get_property_by_folio (A := Nat) (fun _ _ => none) [] "0101234567890" true = none ∧
    get_property_by_folio (A := Nat) (fun _ _ => some []) [] "0101234567890" true = none := by
  exact ⟨by decide, by decide⟩

/-- C4 (amended): the resolver collapses both failure modes into the same
outcome: whenever every query either fails at the transport level (`none`)
or returns zero matches (`some []`), `get_property_by_folio` returns `none`
— the not-found/unavailable distinction exists only in the Remote Query
Client's transient diagnostics, not in the resolver's return value. -/
theorem C4_amended_none_on_failure {A : Type} (q : Src → String → Option (List A))
    (meta : List (String × String)) (folio : String) (prefer_mapserver : Bool)
    (h : ∀ s w, q s w = none ∨ q s w = some []) :
    get_property_by_folio q meta folio prefer_mapserver = none := by
  have htw : ∀ (s : Src) (ws : List String), tryWheres (q s) ws = none := by
    intro s ws
    induction ws with
    | nil => rfl
    | cons w ws ih =>
      rcases h s w with hq | hq <;> simp [tryWheres, hq, ih]
  rw [get_property_by_folio]
  split
  · rfl
  · cases prefer_mapserver <;>
      simp [query_mapserver70, query_featureserver0, htw, Option.orElse]

/-- Witness for `C4_amended_none_on_failure` at a concrete folio and the
all-transport-failures oracle. -/
theorem C4_amended_none_on_failure_w :
    (∀ (s : Src) (w : String),
        (fun (_ : Src) (_ : String) => (none : Option (List Nat))) s w = none ∨
        (fun (_ : Src) (_ : String) => (none : Option (List Nat))) s w = some []) ∧
    get_property_by_folio (A := Nat) (fun _ _ => none) [] "0101234567890" true = none :=
  ⟨fun _ _ => Or.inl rfl, C4_amended_none_on_failure _ _ _ _ (fun _ _ => Or.inl rfl)⟩

/-- C5: for every service behaviour — timeout, connection error, 4xx/5xx
status, error-encoding response body, malformed body — `arcgis_query` never
raises to its caller: it is a total function whose every no-result outcome
comes with a human-readable diagnostic, and each of the enumerated failure
behaviours yields the explicit unavailable result (`none`) plus such a
diagnostic. -/
theorem C5_client_never_raises (layer : Nat) (o : HttpAttempt) :
    ((arcgis_query layer o).1 = none → (arcgis_query layer o).2.isSome = true) ∧
    (isFailureBehavior o = true →
      (arcgis_query layer o).1 = none ∧ (arcgis_query layer o).2.isSome = true) := by
  cases o with
  | timeout => exact ⟨fun _ => rfl, fun _ => ⟨rfl, rfl⟩⟩
  | connError => exact ⟨fun _ => rfl, fun _ => ⟨rfl, rfl⟩⟩
  | response status body =>
    by_cases hst : 400 ≤ status ∧ status < 600
    · refine ⟨fun _ => ?_, fun _ => ⟨?_, ?_⟩⟩ <;>
        simp [arcgis_query, arcgisTryBlock, hst]
    · match body with
      | none =>
        refine ⟨fun _ => ?_, fun _ => ⟨?_, ?_⟩⟩ <;>
          simp [arcgis_query, arcgisTryBlock, hst]
      | some (.dict (some msg) p) =>
        refine ⟨fun _ => ?_, fun _ => ⟨?_, ?_⟩⟩ <;>
          simp [arcgis_query, arcgisTryBlock, hst]
      | some (.dict none p) =>
        constructor
        · intro h
          simp [arcgis_query, arcgisTryBlock, hst] at h
        · intro h
          simp only [isFailureBehavior, Bool.or_false, Bool.and_eq_true,
            decide_eq_true_eq] at h
          exact absurd h hst
      | some (.other p) =>
        constructor
        · intro h
          simp [arcgis_query, arcgisTryBlock, hst] at h
        · intro h
          simp only [isFailureBehavior, Bool.or_false, Bool.and_eq_true,
            decide_eq_true_eq] at h
          exact absurd h hst

/-- Witness for `C5_client_never_raises` at a concrete failing behaviour. -/
theorem C5_client_never_raises_w :
    (arcgis_query 70 .timeout).1 = none ∧ (arcgis_query 70 .timeout).2.isSome = true :=
  (C5_client_never_raises 70 .timeout).2 (by decide)

/-! ### Geometry simplification: ring closure and vertex counts -/

theorem foldl_maxStep_some (pts : List Pt) (a b : Pt) :
    ∀ (l : List Nat) (acc : ℚ × Option Nat) (i : Nat),
      ((l.foldl (maxStep pts a b) acc).2 = some i) → acc.2 = some i ∨ i ∈ l := by
  intro l
  induction l with
  | nil => intro acc i h; exact Or.inl h
  | cons x l ih =>
    intro acc i h
    rcases ih (maxStep pts a b acc x) i h with h' | h'
    · by_cases hlt : acc.1 < perpSq (pts.getD x (0, 0)) a b
      · rw [maxStep, if_pos hlt] at h'
        simp only [Option.some.injEq] at h'
        exact Or.inr (h' ▸ List.mem_cons_self _ _)
      · rw [maxStep, if_neg hlt] at h'
        exact Or.inl h'
    · exact Or.inr (List.mem_cons_of_mem _ h')

theorem maxLoop_idx_mem (pts : List Pt) (a b : Pt) (i : Nat)
    (h : (maxLoop pts a b).2 = some i) : 1 ≤ i ∧ i ≤ pts.length - 2 := by
  rcases foldl_maxStep_some pts a b _ _ _ h with h' | h'
  · simp at h'
  · rw [List.mem_range'_1] at h'
    omega

theorem dpF_length_le (epsSq : ℚ) : ∀ (fuel : Nat) (pts : List Pt),
    (dpF epsSq fuel pts).length ≤ pts.length := by
  intro fuel
  induction fuel with
  | zero => intro pts; exact le_rfl
  | succ fuel ih =>
    intro pts
    by_cases hle : pts.length ≤ 2
    · simp only [dpF, if_pos hle]
      exact le_rfl
    · simp only [dpF, if_neg hle]
      cases hr : (maxLoop pts (pts.head?.getD (0, 0)) (pts.getLast?.getD (0, 0))).2 with
      | none => simp only [List.length_cons, List.length_nil]; omega
      | some idx =>
        dsimp only
        by_cases heps : epsSq < (maxLoop pts (pts.head?.getD (0, 0)) (pts.getLast?.getD (0, 0))).1
        · rw [if_pos heps]
          have h1 := ih (pts.take (idx + 1))
          have h2 := ih (pts.drop idx)
          rw [List.length_take] at h1
          rw [List.length_drop] at h2
          simp only [List.length_append, List.length_dropLast]
          omega
        · rw [if_neg heps]
          simp only [List.length_cons, List.length_nil]
          omega

theorem dpF_ne_nil (epsSq : ℚ) : ∀ (fuel : Nat) (pts : List Pt),
    pts ≠ [] → dpF epsSq fuel pts ≠ [] := by
  intro fuel
  induction fuel with
  | zero => intro pts h; exact h
  | succ fuel ih =>
    intro pts h
    by_cases hle : pts.length ≤ 2
    · simp only [dpF, if_pos hle]; exact h
    · simp only [dpF, if_neg hle]
      cases hr : (maxLoop pts (pts.head?.getD (0, 0)) (pts.getLast?.getD (0, 0))).2 with
      | none => simp
      | some idx =>
        dsimp only
        by_cases heps : epsSq < (maxLoop pts (pts.head?.getD (0, 0)) (pts.getLast?.getD (0, 0))).1
        · rw [if_pos heps]
          obtain ⟨hi1, hi2⟩ := maxLoop_idx_mem pts _ _ idx hr
          have hdne : pts.drop idx ≠ [] := by
            intro hcon
            have := congrArg List.length hcon
            rw [List.length_drop] at this
            simp at this
            omega
          intro hcon
          exact ih (pts.drop idx) hdne (List.append_eq_nil.1 hcon).2
        · rw [if_neg heps]
          simp

theorem dpF_two_le (epsSq : ℚ) : ∀ (fuel : Nat) (pts : List Pt),
    2 ≤ pts.length → 2 ≤ (dpF epsSq fuel pts).length := by
  intro fuel
  induction fuel with
  | zero => intro pts h; exact h
  | succ fuel ih =>
    intro pts h
    by_cases hle : pts.length ≤ 2
    · simp only [dpF, if_pos hle]; exact h
    · simp only [dpF, if_neg hle]
      cases hr : (maxLoop pts (pts.head?.getD (0, 0)) (pts.getLast?.getD (0, 0))).2 with
      | none => simp
      | some idx =>
        dsimp only
        by_cases heps : epsSq < (maxLoop pts (pts.head?.getD (0, 0)) (pts.getLast?.getD (0, 0))).1
        · rw [if_pos heps]
          obtain ⟨hi1, hi2⟩ := maxLoop_idx_mem pts _ _ idx hr
          have h2 : 2 ≤ (dpF epsSq fuel (pts.drop idx)).length := by
            apply ih
            rw [List.length_drop]
            omega
          simp only [List.length_append]
          omega
        · rw [if_neg heps]
          simp

theorem dp_length_le (epsSq : ℚ) (pts : List Pt) : (dp epsSq pts).length ≤ pts.length :=
  dpF_length_le epsSq pts.length pts

theorem dp_two_le (epsSq : ℚ) (pts : List Pt) (h : 2 ≤ pts.length) :
    2 ≤ (dp epsSq pts).length :=
  dpF_two_le epsSq pts.length pts h

theorem simplifyRing_closed (epsSq : ℚ) (ring : List Pt)
    (hcl : ring.head? = ring.getLast?) :
    (simplifyRing epsSq ring).head? = (simplifyRing epsSq ring).getLast? := by
  have hc : decide (ring.head? = ring.getLast?) = true := decide_eq_true hcl
  simp only [simplifyRing, hc, Bool.true_and]
  cases hdp : dp epsSq (if decide (1 < ring.length) = true then ring.dropLast else ring) with
  | nil => simp
  | cons p rest =>
    dsimp only
    by_cases hpl : (p :: rest).getLast? ≠ some p
    · rw [if_pos (decide_eq_true hpl)]
      have hgl : ((p :: rest) ++ [p]).getLast? = some p := by
        rw [List.getLast?_append]
        rfl
      rw [hgl]
      rfl
    · push_neg at hpl
      rw [if_neg (by simp [hpl])]
      simp [hpl]

theorem simplify_rings_closed (tol : ℚ) : ∀ (rings : List (List Pt)),
    (∀ r ∈ rings, r.head? = r.getLast?) →
    ∀ r' ∈ simplify_rings rings tol, r'.head? = r'.getLast? := by
  intro rings
  induction rings with
  | nil => intro _ r' hr'; simp [simplify_rings] at hr'
  | cons ring rest ih =>
    intro h r' hr'
    by_cases hre : ring = []
    · rw [simplify_rings, if_pos hre] at hr'
      exact ih (fun r hr => h r (List.mem_cons_of_mem _ hr)) r' hr'
    · rw [simplify_rings, if_neg hre, List.mem_cons] at hr'
      rcases hr' with rfl | hr'
      · exact simplifyRing_closed _ ring (h ring (List.mem_cons_self _ _))
      · exact ih (fun r hr => h r (List.mem_cons_of_mem _ hr)) r' hr'

/-- C7: geometry simplification preserves ring closure — for a closed input
ring (first vertex equal to last) the simplified ring is closed, both for a
single ring and across `simplify_rings`; and when the total vertex count is
at or under the 1500-vertex threshold, `get_zones_in_polygon` passes the
rings through unchanged. -/
theorem C7_ring_closure_and_threshold (tol : ℚ) (rings : List (List Pt)) (ring : List Pt) :
    (ring.head? = ring.getLast? →
      (simplifyRing ((epsDeg tol) ^ 2) ring).head?
        = (simplifyRing ((epsDeg tol) ^ 2) ring).getLast?) ∧
    ((∀ r ∈ rings, r.head? = r.getLast?) →
      ∀ r' ∈ simplify_rings rings tol, r'.head? = r'.getLast?) ∧
    ((rings.map List.length).sum ≤ 1500 → zonesUseRings rings = rings) := by
  refine ⟨simplifyRing_closed _ ring, simplify_rings_closed tol rings, fun h => ?_⟩
  rw [zonesUseRings, if_neg (by omega)]

/-- Witness for `C7_ring_closure_and_threshold` at a concrete closed ring. -/
theorem C7_ring_closure_and_threshold_w :
    ((simplifyRing ((epsDeg 25) ^ 2) [((0 : ℚ), (0 : ℚ)), ((0 : ℚ), (0 : ℚ))]).head?
      = (simplifyRing ((epsDeg 25) ^ 2) [((0 : ℚ), (0 : ℚ)), ((0 : ℚ), (0 : ℚ))]).getLast?) ∧
    (∀ r' ∈ simplify_rings [[((0 : ℚ), (0 : ℚ)), ((0 : ℚ), (0 : ℚ))]] 25,
      r'.head? = r'.getLast?) ∧
    zonesUseRings [[((0 : ℚ), (0 : ℚ)), ((0 : ℚ), (0 : ℚ))]]
      = [[((0 : ℚ), (0 : ℚ)), ((0 : ℚ), (0 : ℚ))]] :=
  ⟨(C7_ring_closure_and_threshold 25 [[((0 : ℚ), (0 : ℚ)), ((0 : ℚ), (0 : ℚ))]]
      [((0 : ℚ), (0 : ℚ)), ((0 : ℚ), (0 : ℚ))]).1 (by decide),
   (C7_ring_closure_and_threshold 25 [[((0 : ℚ), (0 : ℚ)), ((0 : ℚ), (0 : ℚ))]]
      [((0 : ℚ), (0 : ℚ)), ((0 : ℚ), (0 : ℚ))]).2.1 (by decide),
   (C7_ring_closure_and_threshold 25 [[((0 : ℚ), (0 : ℚ)), ((0 : ℚ), (0 : ℚ))]]
      [((0 : ℚ), (0 : ℚ)), ((0 : ℚ), (0 : ℚ))]).2.2 (by decide)⟩

theorem simplifyRing_open (epsSq : ℚ) (ring : List Pt)
    (hne : ring.head? ≠ ring.getLast?) : simplifyRing epsSq ring = dp epsSq ring := by
  simp only [simplifyRing, decide_eq_false hne, Bool.false_and, Bool.false_eq_true, if_false]
  cases hdp : dp epsSq ring with
  | nil => rfl
  | cons p rest => rfl

theorem simplifyRing_length_le (epsSq : ℚ) (ring : List Pt) :
    (simplifyRing epsSq ring).length ≤ ring.length := by
  by_cases hcl : ring.head? = ring.getLast?
  · by_cases hlt : 1 < ring.length
    · have hc : decide (ring.head? = ring.getLast?) = true := decide_eq_true hcl
      have hd2 : decide (1 < ring.length) = true := decide_eq_true hlt
      simp only [simplifyRing, hc, hd2, Bool.and_self, Bool.true_and, if_true]
      have hdl := dp_length_le epsSq ring.dropLast
      rw [List.length_dropLast] at hdl
      cases hdp : dp epsSq ring.dropLast with
      | nil => simp
      | cons p rest =>
        dsimp only
        have hlen : (p :: rest).length ≤ ring.length - 1 := by
          rw [← hdp]; exact hdl
        by_cases happ : (p :: rest).getLast? ≠ some p
        · rw [if_pos (decide_eq_true happ)]
          simp only [List.length_append, List.length_cons, List.length_nil] at *
          omega
        · rw [if_neg (by simp [happ])]
          omega
    · -- degenerate closed ring of at most one vertex
      match ring with
      | [] => simp [simplifyRing, dp, dpF]
      | [x] =>
        have h1 : dp epsSq [x] = [x] := rfl
        simp only [simplifyRing]
        rw [if_neg (by simp), h1]
        dsimp only
        rw [if_neg (by simp)]
      | x :: y :: ys =>
        exfalso
        apply hlt
        simp only [List.length_cons]
        omega
  · rw [simplifyRing_open epsSq ring hcl]
    exact dp_length_le epsSq ring

theorem simplifyRing_two_le (epsSq : ℚ) (ring : List Pt)
    (h : 3 ≤ ring.length ∨ (2 ≤ ring.length ∧ ring.head? ≠ ring.getLast?)) :
    2 ≤ (simplifyRing epsSq ring).length := by
  by_cases hcl : ring.head? = ring.getLast?
  · have h3 : 3 ≤ ring.length := by
      rcases h with h3 | ⟨_, hne⟩
      · exact h3
      · exact absurd hcl hne
    have hc : decide (ring.head? = ring.getLast?) = true := decide_eq_true hcl
    have hd2 : decide (1 < ring.length) = true := decide_eq_true (by omega)
    simp only [simplifyRing, hc, hd2, Bool.and_self, Bool.true_and, if_true]
    have hdl2 : 2 ≤ (dp epsSq ring.dropLast).length := by
      apply dp_two_le
      rw [List.length_dropLast]
      omega
    cases hdp : dp epsSq ring.dropLast with
    | nil =>
      rw [hdp] at hdl2
      simp at hdl2
    | cons p rest =>
      dsimp only
      rw [hdp] at hdl2
      by_cases happ : (p :: rest).getLast? ≠ some p
      · rw [if_pos (decide_eq_true happ)]
        simp only [List.length_append, List.length_cons, List.length_nil] at *
        omega
      · rw [if_neg (by simp [happ])]
        exact hdl2
  · have h2 : 2 ≤ ring.length := by
      rcases h with h3 | ⟨h2, _⟩
      · omega
      · exact h2
    rw [simplifyRing_open epsSq ring hcl]
    exact dp_two_le epsSq ring h2

theorem mem_simplify_rings (tol : ℚ) : ∀ (rings : List (List Pt)),
    ∀ r' ∈ simplify_rings rings tol,
      ∃ r, r ∈ rings ∧ r' = simplifyRing ((epsDeg tol) ^ 2) r := by
  intro rings
  induction rings with
  | nil => intro r' hr'; simp [simplify_rings] at hr'
  | cons ring rest ih =>
    intro r' hr'
    by_cases hre : ring = []
    · rw [simplify_rings, if_pos hre] at hr'
      obtain ⟨r, hr1, hr2⟩ := ih r' hr'
      exact ⟨r, List.mem_cons_of_mem _ hr1, hr2⟩
    · rw [simplify_rings, if_neg hre, List.mem_cons] at hr'
      rcases hr' with rfl | hr'
      · exact ⟨ring, List.mem_cons_self _ _, rfl⟩
      · obtain ⟨r, hr1, hr2⟩ := ih r' hr'
        exact ⟨r, List.mem_cons_of_mem _ hr1, hr2⟩

/-- C8 counterexample: the degenerate closed ring `[p, p]` is simplified to
the single-vertex ring `[p]` — geometry simplification *can* produce an
output ring with fewer than 2 points. -/
theorem C8_collapses_degenerate_ring :
    simplify_rings [[((0 : ℚ), (0 : ℚ)), ((0 : ℚ), (0 : ℚ))]] 25
      = [[((0 : ℚ), (0 : ℚ))]] ∧
    ([((0 : ℚ), (0 : ℚ))] : List Pt).length < 2 := by
  exact ⟨by decide, by decide⟩

/-- C8 (amended): geometry simplification never increases a ring's vertex
count; and it never produces a ring with fewer than 2 points *provided* the
input ring has at least 3 vertices, or at least 2 vertices and is not
closed (degenerate closed rings of at most 2 coincident vertices can
collapse to a single point).  Every ring produced by `simplify_rings` is
the simplification of one of the input rings. -/
theorem C8_amended_vertex_counts (tol : ℚ) :
    (∀ ring : List Pt,
      (simplifyRing ((epsDeg tol) ^ 2) ring).length ≤ ring.length) ∧
    (∀ ring : List Pt,
      3 ≤ ring.length ∨ (2 ≤ ring.length ∧ ring.head? ≠ ring.getLast?) →
      2 ≤ (simplifyRing ((epsDeg tol) ^ 2) ring).length) ∧
    (∀ rings : List (List Pt), ∀ r' ∈ simplify_rings rings tol,
      ∃ r, r ∈ rings ∧ r' = simplifyRing ((epsDeg tol) ^ 2) r) :=
  ⟨fun ring => simplifyRing_length_le _ ring,
   fun ring h => simplifyRing_two_le _ ring h,
   mem_simplify_rings tol⟩

/-- Witness for `C8_amended_vertex_counts` at a concrete triangle ring. -/
theorem C8_amended_vertex_counts_w :
    (simplifyRing ((epsDeg 25) ^ 2)
        [((0 : ℚ), (0 : ℚ)), ((1 : ℚ), (0 : ℚ)), ((0 : ℚ), (1 : ℚ))]).length
      ≤ ([((0 : ℚ), (0 : ℚ)), ((1 : ℚ), (0 : ℚ)), ((0 : ℚ), (1 : ℚ))] : List Pt).length ∧
    2 ≤ (simplifyRing ((epsDeg 25) ^ 2)
        [((0 : ℚ), (0 : ℚ)), ((1 : ℚ), (0 : ℚ)), ((0 : ℚ), (1 : ℚ))]).length :=
  ⟨(C8_amended_vertex_counts 25).1 _,
   (C8_amended_vertex_counts 25).2.1 _ (Or.inl (by decide))⟩

/-! ### Area query pagination -/

theorem length_mockPages (n o c : Nat) : (mockPages n o c).length = min c (n - o) := by
  simp [mockPages, List.length_take, List.length_drop, List.length_range]

theorem pagedGoF_mock (n P cap : Nat) (hP : 0 < P) :
    ∀ (fuel L r : Nat), cap - L < fuel → (P ∣ L ∨ L = min n cap) → L ≤ min n cap →
      pagedGoF (mockPages n) P cap fuel ((List.range n).take L) L r
        = ((List.range n).take (min n cap),
           r + (if n < cap ∧ (n - L) % P = 0 then (n - L) / P + 1
                else (min n cap - L + P - 1) / P)) := by
  intro fuel
  induction fuel with
  | zero => intro L r hf _ _; omega
  | succ fuel ih =>
    intro L r hf hdvd hle
    have hLn : L ≤ n := le_trans hle (min_le_left _ _)
    have hLcap : L ≤ cap := le_trans hle (min_le_right _ _)
    have hrl : ((List.range n).take L).length = L := by
      rw [List.length_take, List.length_range]
      omega
    by_cases hLlt : L < cap
    · -- the loop body runs
      simp only [pagedGoF, hrl, if_pos hLlt]
      by_cases hnl : n ≤ L
      · -- past the end of the data: empty page, one request, stop
        have hLeqn : L = n := le_antisymm hLn hnl
        have hfe : mockPages n L (min P (cap - L)) = [] := by
          unfold mockPages
          rw [List.drop_eq_nil_of_le (by rw [List.length_range]; omega)]
          simp
        rw [if_pos hfe]
        have hmin : min n cap = n := by omega
        rw [if_pos ⟨by omega, by rw [hLeqn]; simp⟩, hmin, hLeqn]
        simp
      · -- data remains: the page is non-empty
        push_neg at hnl
        have hflen : (mockPages n L (min P (cap - L))).length
            = min (min P (cap - L)) (n - L) := length_mockPages _ _ _
        have hfne : mockPages n L (min P (cap - L)) ≠ [] := by
          intro hcon
          rw [hcon] at hflen
          simp only [List.length_nil] at hflen
          omega
        rw [if_neg hfne]
        by_cases hshort : (mockPages n L (min P (cap - L))).length < min P (cap - L)
        · -- short page: everything left fits, so n < cap and we stop
          rw [if_pos hshort]
          have hnLlt : n - L < min P (cap - L) := by
            rw [hflen] at hshort
            omega
          have hncap : n < cap := by omega
          have hfeq : mockPages n L (min P (cap - L)) = (List.range n).drop L := by
            unfold mockPages
            exact List.take_of_length_le (by rw [List.length_drop, List.length_range]; omega)
          have hrows : (List.range n).take L ++ mockPages n L (min P (cap - L))
              = List.range n := by
            rw [hfeq, List.take_append_drop]
          rw [hrows]
          have hmin : min n cap = n := by omega
          rw [hmin, List.take_of_length_le (le_of_eq (List.length_range n))]
          have hmodne : ¬(n < cap ∧ (n - L) % P = 0) := by
            rintro ⟨_, hmod⟩
            have h2 : n - L < P := by omega
            rw [Nat.mod_eq_of_lt h2] at hmod
            omega
          rw [if_neg hmodne]
          have hdiv : (n - L + P - 1) / P = 1 := by
            apply Nat.div_eq_of_lt_le
            · omega
            · omega
          rw [hdiv]
        · -- full page: extend the rows and continue
          rw [if_neg hshort]
          have hcle : min P (cap - L) ≤ n - L := by
            rw [hflen] at hshort
            omega
          have hrows : (List.range n).take L ++ mockPages n L (min P (cap - L))
              = (List.range n).take (L + min P (cap - L)) := by
            rw [List.take_add]
            rfl
          rw [hrows]
          by_cases hPle : P ≤ cap - L
          · -- a full step of size P
            have hcP : min P (cap - L) = P := min_eq_left hPle
            rw [hcP]
            have hdvdL : P ∣ L := by
              rcases hdvd with h | h
              · exact h
              · exfalso; omega
            have hih := ih (L + P) (r + 1) (by omega)
              (Or.inl (Nat.dvd_add hdvdL dvd_rfl)) (by omega)
            rw [hih]
            simp only [Prod.mk.injEq, true_and]
            refine ?_
            have hmodsh : (n - (L + P)) % P = (n - L) % P := by
              rw [show n - L = (n - (L + P)) + P from by omega, Nat.add_mod_right]
            by_cases hncap : n < cap
            · by_cases hmod : (n - L) % P = 0
              · rw [if_pos ⟨hncap, by rw [hmodsh]; exact hmod⟩, if_pos ⟨hncap, hmod⟩]
                have hdd : (n - L) / P = (n - (L + P)) / P + 1 := by
                  rw [show n - L = (n - (L + P)) + P from by omega, Nat.add_div_right _ hP]
                omega
              · rw [if_neg (by rintro ⟨_, hm⟩; rw [hmodsh] at hm; exact hmod hm),
                  if_neg (by rintro ⟨_, hm⟩; exact hmod hm)]
                have hminn : min n cap = n := by omega
                rw [hminn]
                have hdd : (n - L + P - 1) / P = (n - (L + P) + P - 1) / P + 1 := by
                  rw [show n - L + P - 1 = (n - (L + P) + P - 1) + P from by omega,
                    Nat.add_div_right _ hP]
                omega
            · rw [if_neg (by rintro ⟨h, _⟩; exact hncap h),
                if_neg (by rintro ⟨h, _⟩; exact hncap h)]
              have hminc : min n cap = cap := by omega
              rw [hminc]
              have hdd : (cap - L + P - 1) / P = (cap - (L + P) + P - 1) / P + 1 := by
                rw [show cap - L + P - 1 = (cap - (L + P) + P - 1) + P from by omega,
                  Nat.add_div_right _ hP]
              omega
          · -- last step fills the cap exactly
            have hcC : min P (cap - L) = cap - L := min_eq_right (by omega)
            rw [hcC]
            have hcle' : cap - L ≤ n - L := by rw [hcC] at hcle; exact hcle
            have hcapn : cap ≤ n := by omega
            rw [show L + (cap - L) = cap from by omega]
            have hih := ih cap (r + 1) (by omega) (Or.inr (by omega)) (by omega)
            rw [hih]
            simp only [Prod.mk.injEq, true_and]
            refine ?_
            rw [if_neg (by rintro ⟨h, _⟩; omega), if_neg (by rintro ⟨h, _⟩; omega)]
            have hminc : min n cap = cap := by omega
            rw [hminc]
            have h0 : (cap - cap + P - 1) / P = 0 := Nat.div_eq_of_lt (by omega)
            have h1 : (cap - L + P - 1) / P = 1 := by
              apply Nat.div_eq_of_lt_le
              · omega
              · omega
            omega
    · -- the cap is already reached: the loop does not run
      have hLcap' : L = cap := by omega
      have hcapn : cap ≤ n := by omega
      have hmin : min n cap = L := by omega
      simp only [pagedGoF, hrl, if_neg hLlt]
      rw [if_neg (by rintro ⟨h, _⟩; omega), hmin]
      have h0 : (L - L + P - 1) / P = 0 := Nat.div_eq_of_lt (by omega)
      rw [h0]
      simp

/-- C2 counterexample: with N = 2 records, page size P = 2 and cap 5, the
engine issues 2 page requests while ceil(min(N,cap)/P) = 1 — when the record
count is an exact multiple of the page size (and below the cap), the last
full page is followed by one extra empty-page probe. -/
theorem C2_extra_request_on_exact_multiple :
    (paged (mockPages 2) 2 5).1 = [0, 1] ∧
    (paged (mockPages 2) 2 5).2 = 2 ∧
    (min 2 5 + 2 - 1) / 2 = 1 := by
  exact ⟨by decide, by decide, by decide⟩

/-- C2 (amended): for a mock service holding N records served in pages of
size P with hard cap `cap`, `_paged` terminates and returns exactly
min(N, cap) records (the first min(N, cap) of them); it issues
ceil(min(N,cap)/P) page requests except when N < cap and P divides N, in
which case it issues N/P + 1 requests (the extra request is the empty-page
probe that detects the end of the data). -/
theorem C2_amended_pagination (n P cap : Nat) (hP : 0 < P) :
    (paged (mockPages n) P cap).1 = (List.range n).take (min n cap) ∧
    (paged (mockPages n) P cap).1.length = min n cap ∧
    (paged (mockPages n) P cap).2
      = (if n < cap ∧ n % P = 0 then n / P + 1 else (min n cap + P - 1) / P) := by
  have h := pagedGoF_mock n P cap hP (cap + 1) 0 0 (by omega) (Or.inl (dvd_zero P))
    (by omega)
  rw [show (List.range n).take 0 = [] from rfl] at h
  rw [paged, h]
  simp only [Nat.sub_zero, Nat.zero_add]
  refine ⟨trivial, ?_, trivial⟩
  rw [List.length_take, List.length_range]
  omega

/-- Witness for `C2_amended_pagination` at N = 3, P = 2, cap = 5. -/
theorem C2_amended_pagination_w :
    (paged (mockPages 3) 2 5).1 = (List.range 3).take (min 3 5) ∧
    (paged (mockPages 3) 2 5).1.length = min 3 5 ∧
    (paged (mockPages 3) 2 5).2
      = (if 3 < 5 ∧ 3 % 2 = 0 then 3 / 2 + 1 else (min 3 5 + 2 - 1) / 2) :=
  C2_amended_pagination 3 2 5 (by decide)

/-! ### Sales date-window filtering -/

/-- C3: the date-window pipeline of `get_recent_sales_in_polygon` cannot
produce a windowed result at all: for every non-empty record set carrying
the sale-date column, computing the recency cutoff raises `TypeError`
(`pd.Timestamp.utcnow()` is already timezone-aware and `tz_localize("UTC")`
rejects aware timestamps), so the function errors out before filtering —
the claimed windowed, descending-sorted result is never returned. -/
theorem C3_cutoff_raises (tp : String → Option Int) (nowNs : Int) (days : Nat)
    (recs : List SaleRec) (hne : recs ≠ []) :
    get_recent_sales_window tp nowNs days recs
      = Except.error
          "TypeError: Cannot localize tz-aware Timestamp, use tz_convert for conversions" := by
  rw [get_recent_sales_window, if_neg hne]
  rfl

/-- Witness for `C3_cutoff_raises`: a single sale record whose date is the
epoch-millisecond number 1700000000000 with a 90-day window. -/
theorem C3_cutoff_raises_w :
    get_recent_sales_window (fun _ => none) (1700000000000 * 1000000) 90
        [⟨0, Cell.num 1700000000000⟩]
      = Except.error
          "TypeError: Cannot localize tz-aware Timestamp, use tz_convert for conversions" :=
  C3_cutoff_raises _ _ _ _ (by decide)

/-! ### Bulk resolver -/

theorem mem_dropDupFolio : ∀ (rows : List BulkRow) (seen : List String) (r : BulkRow),
    r ∈ dropDupFolio rows seen → r ∈ rows ∧ r.folio ∉ seen := by
  intro rows
  induction rows with
  | nil => intro seen r hr; simp [dropDupFolio] at hr
  | cons row rest ih =>
    intro seen r hr
    by_cases hs : row.folio ∈ seen
    · rw [dropDupFolio, if_pos hs] at hr
      obtain ⟨h1, h2⟩ := ih seen r hr
      exact ⟨List.mem_cons_of_mem _ h1, h2⟩
    · rw [dropDupFolio, if_neg hs, List.mem_cons] at hr
      rcases hr with rfl | hr
      · exact ⟨List.mem_cons_self _ _, hs⟩
      · obtain ⟨h1, h2⟩ := ih (row.folio :: seen) r hr
        exact ⟨List.mem_cons_of_mem _ h1, fun hc => h2 (List.mem_cons_of_mem _ hc)⟩

theorem nodup_dropDupFolio : ∀ (rows : List BulkRow) (seen : List String),
    ((dropDupFolio rows seen).map BulkRow.folio).Nodup := by
  intro rows
  induction rows with
  | nil => intro seen; simp [dropDupFolio]
  | cons row rest ih =>
    intro seen
    by_cases hs : row.folio ∈ seen
    · rw [dropDupFolio, if_pos hs]
      exact ih seen
    · rw [dropDupFolio, if_neg hs]
      simp only [List.map_cons, List.nodup_cons]
      constructor
      · intro hmem
        rw [List.mem_map] at hmem
        obtain ⟨r, hr, hfol⟩ := hmem
        obtain ⟨_, hnotin⟩ := mem_dropDupFolio rest (row.folio :: seen) r hr
        exact hnotin (hfol ▸ List.mem_cons_self _ _)
      · exact ih (row.folio :: seen)

/-- C9 counterexample: the result-set de-duplication keeps the *first row*
per Folio value regardless of status, not the first OK occurrence: with an
oracle that raises for the first identifier and, for the second identifier,
returns a record whose server-reported folio equals the first key, the OK
row is discarded in favour of the earlier ERROR row. -/
theorem C9_keeps_first_row_not_first_ok :
    bulk_properties_by_folios
        (fun k => if k = "01-0123-456-7890" then Except.error "boom"
                  else Except.ok (some ⟨some "01-0123-456-7890"⟩))
        ["0101234567890", "1111111111111"]
      = [⟨"01-0123-456-7890", "ERROR: boom"⟩] := by
  decide

/-- C9 (amended): `bulk_properties_by_folios` itself does not deduplicate
its input — it builds one row per input element in order (callers
deduplicate before invoking it) — and then deduplicates the result rows by
Folio value keeping the *first* occurrence, whatever its status; the output
rows therefore carry pairwise distinct Folio values, and the spec's example
still holds: 5 identifiers containing one duplicated pair, one remote
failure and two successes yield exactly 4 rows with statuses
{OK, OK, OK, ERROR}. -/
theorem C9_amended_dedup_by_first_row :
    (∀ (resolve : String → Except String (Option BulkAttrs)) (folio_list : List String),
      ((bulk_properties_by_folios resolve folio_list).map BulkRow.folio).Nodup) ∧
    (bulk_properties_by_folios
        (fun k => if k = "03-0000-000-0003" then Except.error "fail"
                  else Except.ok (some ⟨some k⟩))
        ["0100000000001", "0100000000001", "0200000000002", "0300000000003",
         "0400000000004"]).map BulkRow.status
      = ["OK", "OK", "ERROR: fail", "OK"] := by
  constructor
  · intro resolve folio_list
    exact nodup_dropDupFolio _ []
  · decide
